import Mathlib

/-!
Shallow embedding of the CommodityMomentum repository
(src/load_data.py, src/commomentum.py, src/sma.py).

Modelling conventions:
* A pandas Series of returns is a `List (Option ℚ)`: `none` models a
  missing value (NaN), `some v` a defined float, with exact rationals
  standing in for IEEE doubles (every claim here is about structural or
  exact-arithmetic behaviour, not rounding).
* A pandas DataFrame (Return Panel) is a `List (List (Option ℚ))`, a list
  of rows (timestamps), each row listing the columns (assets).
* Quantities the code obtains by `np.sqrt` live in `ℝ` via `Real.sqrt`;
  everything else stays in `ℚ` and is computable.
* Missing-value semantics follow pandas: comparisons with NaN are false,
  `sum`/`mean`/`std` skip NaN, `DataFrame.sum(axis=1)` over an all-NaN row
  yields `0.0`, `shift(1)` introduces a missing first entry, and
  `cumprod` leaves NaN cells NaN while accumulating over defined cells.
* Lean's division-by-zero-equals-zero convention is only exercised where
  the Python code would raise (e.g. `K = 0`); claims are stated away from
  those inputs.
-/

/-! ### load_data.py — outlier repair (`LoadData.remove_outliers`) -/

/-- Period granularity accepted by `remove_outliers` (an invalid period
name raises `ValueError` in the source and is not representable here). -/
inductive Period where
  | daily
  | monthly
  | quarterly
  | yearly
deriving DecidableEq

/-- The `threshold_map` of `remove_outliers`: daily 1.0, monthly 2.0,
quarterly 5.0, yearly 5.0. -/
def Period.threshold : Period → ℚ
  | .daily => 1
  | .monthly => 2
  | .quarterly => 5
  | .yearly => 5

/-- Mean of a pandas Series: skip missing values; the mean of a series
with no defined value is NaN (`none`). -/
def optMean (l : List (Option ℚ)) : Option ℚ :=
  let vals := l.filterMap id
  if vals.isEmpty then none else some (vals.sum / vals.length)

/-- The up-to-3 values immediately before index `i`
(`data.loc[:idx].tail(4)[:-1]`). -/
def prevWindow (data : List (Option ℚ)) (i : ℕ) : List (Option ℚ) :=
  (data.take i).drop (i - 3)

/-- The up-to-3 values immediately after index `i`
(`data.loc[idx:].head(4)[1:]`). -/
def nextWindow (data : List (Option ℚ)) (i : ℕ) : List (Option ℚ) :=
  (data.drop (i + 1)).take 3

/-- The replacement value for an outlier at index `i`:
`pd.concat([prev_vals, next_vals]).mean()`, drawn from the original
(uncleaned) series. -/
def outlierReplacement (data : List (Option ℚ)) (i : ℕ) : Option ℚ :=
  optMean (prevWindow data i ++ nextWindow data i)

/-- The mask `abs(data) > threshold`; a missing value compares false. -/
def isOutlier (thr : ℚ) : Option ℚ → Bool
  | some v => decide (thr < |v|)
  | none => false

/-- Indices of the outliers, `data[outlier_mask].index`. -/
def outlierIndices (data : List (Option ℚ)) (thr : ℚ) : List ℕ :=
  (List.range data.length).filter fun i => isOutlier thr (data.getD i none)

/-- The loop of `remove_outliers`: start from a copy of `data` and, for
each outlier index, overwrite that cell with the replacement computed
from the original series. -/
def remove_outliers (data : List (Option ℚ)) (p : Period) : List (Option ℚ) :=
  (outlierIndices data p.threshold).foldl
    (fun cleaned i => cleaned.set i (outlierReplacement data i)) data

/-! ### commomentum.py — rolling returns and cross-sectional signals -/

/-- The trailing window of length (at most) `w` ending at index `t`:
entries `t+1-w .. t` of the series. -/
def windowAt (w t : ℕ) (l : List (Option ℚ)) : List (Option ℚ) :=
  (l.take (t + 1)).drop (t + 1 - w)

/-- Rolling window aggregation `series.rolling(window=w).sum()`:
entry `t` is the sum of the `w` trailing observations ending at `t`,
missing while the window is not yet full or contains a missing value
(pandas `min_periods` defaults to the window length). -/
def rollingSum (w : ℕ) (l : List (Option ℚ)) : List (Option ℚ) :=
  (List.range l.length).map fun t =>
    if w ≤ t + 1 ∧ (windowAt w t l).all Option.isSome then
      some ((windowAt w t l).filterMap id).sum
    else none

/-- Rolling window aggregation `series.rolling(window=w).mean()`. -/
def rollingMean (w : ℕ) (l : List (Option ℚ)) : List (Option ℚ) :=
  (List.range l.length).map fun t =>
    if w ≤ t + 1 ∧ (windowAt w t l).all Option.isSome then
      some (((windowAt w t l).filterMap id).sum / w)
    else none

/-- Number of defined entries of the row strictly greater than `v`. -/
def countGreater (row : List (Option ℚ)) (v : ℚ) : ℕ :=
  row.countP fun y => (y.map fun u => decide (v < u)).getD false

/-- Descending rank with minimum-rank tie semantics and NaN kept unranked:
`row.rank(ascending=False, method='min', na_option='keep')`. A defined
value `v` receives rank `1 + #(defined entries strictly greater than v)`;
a missing entry receives no rank. -/
def rankRow (row : List (Option ℚ)) : List (Option ℤ) :=
  row.map fun x => x.map fun v => 1 + (countGreater row v : ℤ)

/-- Line 36: `long_positions = (ranked <= top_n).astype(int)`; a missing
rank compares false. -/
def longPositions (row : List (Option ℚ)) (K : ℕ) : List ℤ :=
  (rankRow row).map fun r =>
    match r with
    | some rv => if rv ≤ (K : ℤ) then 1 else 0
    | none => 0

/-- Line 37: `short_positions = -1 * (ranked > (len(row) - bottom_n)).astype(int)`;
note that `len(row)` counts missing entries too. -/
def shortPositions (row : List (Option ℚ)) (K : ℕ) : List ℤ :=
  (rankRow row).map fun r =>
    match r with
    | some rv => if ((row.length : ℤ) - (K : ℤ)) < rv then -1 else 0
    | none => 0

/-- `get_top_bottom_commodities` with `top_n = bottom_n = K`:
the elementwise sum of long and short position indicators. -/
def get_top_bottom_commodities (row : List (Option ℚ)) (K : ℕ) : List ℤ :=
  List.zipWith (· + ·) (longPositions row K) (shortPositions row K)

/-- Column `a` of a panel stored as a list of rows. -/
def column (data : List (List (Option ℚ))) (a : ℕ) : List (Option ℚ) :=
  data.map fun row => row.getD a none

/-- Number of columns of the panel (all rows are assumed rectangular,
as a DataFrame is). -/
def panelWidth (data : List (List (Option ℚ))) : ℕ :=
  (data.headD []).length

/-- `self.data.rolling(window=X).sum()`: the per-column rolling sum,
re-assembled row by row. -/
def rollingPanelSum (w : ℕ) (data : List (List (Option ℚ))) :
    List (List (Option ℚ)) :=
  (List.range data.length).map fun t =>
    (List.range (panelWidth data)).map fun a =>
      (rollingSum w (column data a)).getD t none

/-- `trading_signals = rolling_data.apply(get_top_bottom_commodities, axis=1)`. -/
def momentumSignals (data : List (List (Option ℚ))) (K X : ℕ) : List (List ℤ) :=
  (rollingPanelSum X data).map fun row => get_top_bottom_commodities row K

/-- `DataFrame.shift(1)` on a panel of (total) signal rows: the first row
becomes all-missing and every other row is the previous row. -/
def shiftRows (rows : List (List ℤ)) (n : ℕ) : List (List (Option ℤ)) :=
  match rows with
  | [] => []
  | r :: rs => List.replicate n none :: ((r :: rs).map fun row => row.map some).dropLast

/-- Row product-and-sum `(signal_row * return_row).sum()` with pandas
skip-NaN semantics: a product with a missing factor contributes nothing,
and an all-missing row sums to `0`. -/
def rowDot (sig : List (Option ℤ)) (ret : List (Option ℚ)) : ℚ :=
  (List.zipWith
    (fun s r =>
      match s, r with
      | some sv, some rv => (sv : ℚ) * rv
      | _, _ => 0)
    sig ret).sum

/-- Line 41: `strategy_returns = (trading_signals.shift(1) * self.data).sum(axis=1) / (2 * K)`.
Every entry is a number (never NaN), because the row sum skips missing
products. -/
def momentumStrategyReturns (data : List (List (Option ℚ))) (K X : ℕ) : List ℚ :=
  List.zipWith (fun srow drow => rowDot srow drow / (2 * (K : ℚ)))
    (shiftRows (momentumSignals data K X) (panelWidth data)) data

/-! ### commomentum.py — performance metrics -/

/-- Mean of a fully-defined series (`Series.mean()`): NaN on an empty
series. -/
def listMean (l : List ℚ) : Option ℚ :=
  if l.isEmpty then none else some (l.sum / l.length)

/-- Sample variance with `ddof=1` (the square of `Series.std()`): NaN when
fewer than two observations exist. -/
def sampleVar (l : List ℚ) : Option ℚ :=
  if l.length < 2 then none
  else some ((l.map fun x => (x - l.sum / l.length) ^ 2).sum / ((l.length : ℚ) - 1))

/-- Sample standard deviation `Series.std()`, the square root of
`sampleVar`. -/
noncomputable def sampleStd (l : List ℚ) : Option ℝ :=
  (sampleVar l).map fun v : ℚ => Real.sqrt (v : ℝ)

/-- Line 42: `annualized_returns = strategy_returns.mean() * 12`. -/
def annualizedReturn (l : List ℚ) : Option ℚ :=
  (listMean l).map (· * 12)

/-- Line 43: `annualized_std_dev = strategy_returns.std() * np.sqrt(12)`. -/
noncomputable def annualizedStdDev (l : List ℚ) : Option ℝ :=
  (sampleStd l).map fun s => s * Real.sqrt 12

/-- Line 44: `sharpe = (annualized_returns - RiskFreeRate) / annualized_std_dev
if annualized_std_dev != 0 else 0`. A NaN standard deviation (`none`)
satisfies Python's `!= 0` and the division then yields NaN again. -/
noncomputable def sharpe (l : List ℚ) (rf : ℚ) : Option ℝ :=
  (annualizedStdDev l).bind fun s =>
    if s ≠ 0 then (annualizedReturn l).map (fun m : ℚ => ((m : ℝ) - (rf : ℝ)) / s)
    else some 0

/-- Line 45: `cum_returns = strategy_returns.cumsum()` (running sum). -/
def cumsum : List ℚ → List ℚ
  | [] => []
  | x :: xs => x :: (cumsum xs).map (fun y => x + y)

/-- Line 47: `running_max = cum_returns.cummax()` (running maximum). -/
def cummax : List ℚ → List ℚ
  | [] => []
  | x :: xs => x :: (cummax xs).map (max x)

/-- Line 48: `drawdowns = cum_returns - running_max`. -/
def drawdowns (cum : List ℚ) : List ℚ :=
  List.zipWith (· - ·) cum (cummax cum)

/-- Line 49: `max_drawdown = drawdowns.min()`; NaN (`none`) on an empty
series. -/
def maxDrawdown (cum : List ℚ) : Option ℚ :=
  (drawdowns cum).min?

/-! ### sma.py — moving-average crossover strategy -/

/-- Line 14: `self.df[column_name].pct_change()` over a price series,
here assumed fully defined (the DataFrame "is already cleaned"): the
first entry is missing, entry `t ≥ 1` is `p[t]/p[t-1] - 1`. -/
def pctChange (prices : List ℚ) : List (Option ℚ) :=
  match prices with
  | [] => []
  | _ :: _ =>
      none :: List.zipWith (fun prev cur => some ((cur - prev) / prev))
        prices (prices.drop 1)

/-- Line 28: `signal = (SMA_short > SMA_long).astype(int) - (SMA_short <
SMA_long).astype(int)`; a comparison with a missing mean is false, so the
signal is a total integer series over {-1, 0, 1}. -/
def smaSignal (prices : List ℚ) (shortW longW : ℕ) : List ℤ :=
  List.zipWith
    (fun a b =>
      match a, b with
      | some x, some y => if y < x then 1 else if x < y then -1 else 0
      | _, _ => 0)
    (rollingMean shortW (prices.map some)) (rollingMean longW (prices.map some))

/-- `Series.shift()` of a total integer series: the first entry becomes
missing. -/
def shiftSignal (xs : List ℤ) : List (Option ℤ) :=
  match xs with
  | [] => []
  | _ :: _ => none :: (xs.map some).dropLast

/-- Line 29: `strategy_return = self.df['daily_return'] * signal.shift()`;
an elementwise product, missing where either factor is missing. -/
def smaStrategyReturns (prices : List ℚ) (shortW longW : ℕ) : List (Option ℚ) :=
  List.zipWith
    (fun r sg =>
      match r, sg with
      | some rv, some sv => some (rv * (sv : ℚ))
      | _, _ => none)
    (pctChange prices) (shiftSignal (smaSignal prices shortW longW))

/-- `Series.cumprod()` with pandas skip-NaN semantics: a missing cell
stays missing, a defined cell multiplies the running product of the
defined cells so far (`acc` is that running product). -/
def cumprodSkip : List (Option ℚ) → ℚ → List (Option ℚ)
  | [], _ => []
  | none :: rest, acc => none :: cumprodSkip rest acc
  | some x :: rest, acc => some (acc * x) :: cumprodSkip rest (acc * x)

/-- Line 30: `self.df['strategy_cumulative'] = (1 + strategy_return).cumprod() - 1`. -/
def strategyCumulative (prices : List ℚ) (shortW longW : ℕ) : List (Option ℚ) :=
  (cumprodSkip ((smaStrategyReturns prices shortW longW).map
    (Option.map (fun r => 1 + r))) 1).map (Option.map (fun c => c - 1))

/-- Line 47: `cumulative_return = (1 + strategy_return).cumprod().iloc[-1] - 1`,
the final compounded cumulative return of one (short, long) pair. -/
def finalCumulativeReturn (prices : List ℚ) (shortW longW : ℕ) : Option ℚ :=
  ((cumprodSkip ((smaStrategyReturns prices shortW longW).map
    (Option.map (fun r => 1 + r))) 1).getLast?.join).map (fun c => c - 1)

/-- Output of the single-pair path `_compute_single_sma_strategy`. -/
structure SingleSMARun where
  signal : List ℤ
  strategyReturn : List (Option ℚ)
  stratCumulative : List (Option ℚ)
  baselineCumulative : List (Option ℚ)
deriving DecidableEq

/-- Lines 25-33, `_compute_single_sma_strategy`: the single-pair path.
The source contains no short-versus-long validation; the only failures
are the ones pandas itself raises — a window length below 1
(`ValueError`) or `iloc[0]` on an empty frame (`IndexError`) — modelled
as `none`. Every other input, including `shortW ≥ longW`, is evaluated. -/
def compute_single_sma_strategy (prices : List ℚ) (shortW longW : ℕ) :
    Option SingleSMARun :=
  if shortW = 0 ∨ longW = 0 ∨ prices.isEmpty then none
  else some
    { signal := smaSignal prices shortW longW
      strategyReturn := smaStrategyReturns prices shortW longW
      stratCumulative := strategyCumulative prices shortW longW
      baselineCumulative := prices.map fun p => some (p / prices.headD 0 - 1) }

/-! ### sma.py — grid search (`_compute_best_sma_strategies`) -/

/-- Line 36: `moving_averages = range(1, 252)`, the candidate window
lengths 1..251. -/
def movingAverages : List ℕ :=
  List.range' 1 251

/-- Lines 40-48: `strategy_results`, keyed by the evaluated pairs in loop
order — short window outer, long window inner, pairs with
`short_ma < long_ma` only — valued by the final compounded cumulative
return. -/
def strategyResults (prices : List ℚ) : List ((ℕ × ℕ) × Option ℚ) :=
  movingAverages.flatMap fun s =>
    movingAverages.filterMap fun l =>
      if s < l then some ((s, l), finalCumulativeReturn prices s l) else none

/-- Line 49: `strategy_std_dev[(short_ma, long_ma)] =
strategy_return.dropna().std()` for the same evaluated pairs. -/
noncomputable def strategyStdDevs (prices : List ℚ) : List ((ℕ × ℕ) × Option ℝ) :=
  movingAverages.flatMap fun s =>
    movingAverages.filterMap fun l =>
      if s < l then
        some ((s, l), sampleStd ((smaStrategyReturns prices s l).filterMap id))
      else none

/-- Sort key of line 51 (`key=lambda x: x[1]`); a missing value is read
as `0` (unreachable for a price series of length at least two, where
every evaluated cumulative return is defined). -/
def sortKey (x : (ℕ × ℕ) × Option ℚ) : ℚ :=
  x.2.getD 0

/-- Line 51: `sorted(strategy_results.items(), key=lambda x: x[1],
reverse=True)` — a stable descending sort by cumulative return. -/
def sortedStrategies (prices : List ℚ) : List ((ℕ × ℕ) × Option ℚ) :=
  (strategyResults prices).mergeSort fun a b => decide (sortKey b ≤ sortKey a)

/-- Line 51: the `[:top_n]` truncation — the reported top strategies. -/
def bestStrategies (prices : List ℚ) (topN : ℕ) : List ((ℕ × ℕ) × Option ℚ) :=
  (sortedStrategies prices).take topN

/-! ### General helper lemmas -/

instance : Std.Antisymm (fun x1 x2 : ℚ => x1 ≤ x2) :=
  ⟨fun h₁ h₂ => le_antisymm h₁ h₂⟩

lemma map_range_getD {α : Type} (f : ℕ → α) (n t : ℕ) (d : α) (h : t < n) :
    ((List.range n).map f).getD t d = f t := by
  rw [List.getD_eq_getElem _ _ (by simpa using h), List.getElem_map, List.getElem_range]

lemma min?_spec {l : List ℚ} {a : ℚ} (h : l.min? = some a) :
    a ∈ l ∧ ∀ b ∈ l, a ≤ b := by
  rw [List.min?_eq_some_iff] at h
  · exact h
  · exact fun a => le_refl a
  · exact fun a b => min_choice a b
  · exact fun a b c => le_min_iff

/-! ### Lemmas on the drawdown computation -/

lemma cummax_cons (x : ℚ) (xs : List ℚ) :
    cummax (x :: xs) = x :: (cummax xs).map (max x) := rfl

lemma cummax_length (l : List ℚ) : (cummax l).length = l.length := by
  induction l with
  | nil => rfl
  | cons x xs ih => simp [cummax_cons, ih]

lemma drawdowns_nonpos_aux (l : List ℚ) :
    ∀ m : ℚ, ∀ p ∈ List.zipWith (· - ·) l ((cummax l).map (max m)), p ≤ 0 := by
  induction l with
  | nil => simp
  | cons x xs ih =>
      intro m p hp
      rw [cummax_cons, List.map_cons, List.zipWith_cons_cons, List.map_map] at hp
      have hmax : (max m) ∘ (max x) = max (max m x) := by
        funext y
        simp [max_assoc]
      rw [hmax] at hp
      rcases List.mem_cons.mp hp with h | h
      · subst h
        simp [sub_nonpos]
      · exact ih (max m x) p h

lemma drawdowns_nonpos (cum : List ℚ) : ∀ p ∈ drawdowns cum, p ≤ 0 := by
  cases cum with
  | nil => simp [drawdowns]
  | cons x xs =>
      intro p hp
      rw [drawdowns, cummax_cons, List.zipWith_cons_cons] at hp
      rcases List.mem_cons.mp hp with h | h
      · subst h
        simp
      · exact drawdowns_nonpos_aux xs x p h

lemma cummax_chain (l : List ℚ) : (cummax l).Chain' (· ≤ ·) := by
  induction l with
  | nil => simp [cummax]
  | cons x xs ih =>
      rw [cummax_cons, List.chain'_cons']
      refine ⟨?_, ?_⟩
      · intro y hy
        rw [List.head?_map] at hy
        rcases hz : (cummax xs).head? with _ | z
        · rw [hz] at hy
          simp at hy
        · rw [hz] at hy
          obtain rfl : max x z = y := by simpa using hy
          exact le_max_left x z
      · rw [List.chain'_map]
        exact List.Chain'.imp (fun a b hab => max_le_max le_rfl hab) ih

lemma drawdowns_length (cum : List ℚ) : (drawdowns cum).length = cum.length := by
  rw [drawdowns, List.length_zipWith, cummax_length, min_self]

/-- Claim C8: for every non-empty cumulative-return series, the max
drawdown (minimum of cumulative value minus running maximum) is defined
and at most 0, and it is 0 only if the cumulative series is
non-decreasing throughout. -/
theorem max_drawdown_sign (cum : List ℚ) (h : cum ≠ []) :
    ∃ d, maxDrawdown cum = some d ∧ d ≤ 0 ∧
      (d = 0 → cum.Chain' (· ≤ ·)) := by
  obtain ⟨d, hd⟩ : ∃ d, (drawdowns cum).min? = some d := by
    rcases hdd : drawdowns cum with _ | ⟨p, ps⟩
    · exfalso
      have := drawdowns_length cum
      rw [hdd] at this
      exact h (List.length_eq_zero.mp this.symm)
    · exact ⟨_, rfl⟩
  obtain ⟨hmem, hle⟩ := min?_spec hd
  refine ⟨d, hd, drawdowns_nonpos cum d hmem, ?_⟩
  intro hd0
  have hpw : ∀ p ∈ drawdowns cum, p = 0 := fun p hp =>
    le_antisymm (drawdowns_nonpos cum p hp) (hd0 ▸ hle p hp)
  have hlen : cum.length = (cummax cum).length := (cummax_length cum).symm
  have heq : cum = cummax cum := by
    apply List.ext_getElem hlen
    intro i h1 h2
    have hi : i < (drawdowns cum).length := by
      rw [drawdowns_length]
      exact h1
    have hdz : (drawdowns cum)[i] = cum[i] - (cummax cum)[i] := by
      simp only [drawdowns, List.getElem_zipWith]
    have hz := hpw _ (List.getElem_mem hi)
    rw [hdz] at hz
    exact sub_eq_zero.mp hz
  rw [heq]
  exact cummax_chain cum

/-- Witness for C8 at a concrete input: the series `[1, 0, 2]` dips, its
max drawdown is defined and nonpositive. -/
theorem max_drawdown_sign_witness :
    ∃ d, maxDrawdown [(1 : ℚ), 0, 2] = some d ∧ d ≤ 0 ∧
      (d = 0 → List.Chain' (· ≤ ·) [(1 : ℚ), 0, 2]) :=
  max_drawdown_sign [(1 : ℚ), 0, 2] (by decide)

/-! ### Lemmas on the rolling aggregator -/

lemma windowAt_eq_of_full {w t : ℕ} (l : List (Option ℚ)) (hw : w ≤ t + 1) :
    windowAt w t l = (l.drop (t + 1 - w)).take w := by
  rw [windowAt, List.drop_take, Nat.sub_sub_self hw]

lemma rollingSum_getD {w t : ℕ} (l : List (Option ℚ)) (ht : t < l.length) :
    (rollingSum w l).getD t none =
      if w ≤ t + 1 ∧ (windowAt w t l).all Option.isSome then
        some ((windowAt w t l).filterMap id).sum
      else none := by
  rw [rollingSum, map_range_getD _ _ _ _ ht]

lemma rollingMean_getD {w t : ℕ} (l : List (Option ℚ)) (ht : t < l.length) :
    (rollingMean w l).getD t none =
      if w ≤ t + 1 ∧ (windowAt w t l).all Option.isSome then
        some (((windowAt w t l).filterMap id).sum / w)
      else none := by
  rw [rollingMean, map_range_getD _ _ _ _ ht]

/-- Claim C6: for a window `W ≥ 1`, the rolling aggregator emits, at
every index `t ≥ W−1` whose trailing `W` raw values exist, the sum
(momentum) or the arithmetic mean (moving averages) of exactly those `W`
values; at every index `t < W−1` it emits a missing value; and on a
panel it acts column by column. -/
theorem rolling_window_spec (w : ℕ) (l : List (Option ℚ)) (t : ℕ)
    (hw : 1 ≤ w) (ht : t < l.length) :
    (∀ vals : List ℚ, w ≤ t + 1 → (l.drop (t + 1 - w)).take w = vals.map some →
       (rollingSum w l).getD t none = some vals.sum ∧
       (rollingMean w l).getD t none = some (vals.sum / w))
    ∧ (t + 1 < w →
       (rollingSum w l).getD t none = none ∧ (rollingMean w l).getD t none = none)
    ∧ (∀ (data : List (List (Option ℚ))) (u a : ℕ),
        u < data.length → a < panelWidth data →
        ((rollingPanelSum w data).getD u []).getD a none =
          (rollingSum w (column data a)).getD u none) := by
  refine ⟨?_, ?_, ?_⟩
  · intro vals hfull hwin
    have hwin' : windowAt w t l = vals.map some := by
      rw [windowAt_eq_of_full l hfull, hwin]
    have hall : (windowAt w t l).all Option.isSome = true := by
      rw [hwin']
      simp [List.all_eq_true]
    have hfm : (windowAt w t l).filterMap id = vals := by
      rw [hwin', List.filterMap_map]
      simp [List.filterMap_some]
    rw [rollingSum_getD l ht, rollingMean_getD l ht, hfm,
      if_pos ⟨hfull, hall⟩, if_pos ⟨hfull, hall⟩]
    exact ⟨rfl, rfl⟩
  · intro hlt
    have hneg : ¬ (w ≤ t + 1 ∧ (windowAt w t l).all Option.isSome) := by
      rintro ⟨hle, -⟩
      exact absurd hle (by omega)
    rw [rollingSum_getD l ht, rollingMean_getD l ht, if_neg hneg, if_neg hneg]
    exact ⟨rfl, rfl⟩
  · intro data u a hu ha
    rw [rollingPanelSum, map_range_getD _ _ _ _ hu, map_range_getD _ _ _ _ ha]

/-- Witness for C6 at a concrete input: window 2 over `[1, 2, 3]` is
missing at index 0 and sums/averages the last two values at index 2. -/
theorem rolling_window_spec_witness :
    ((rollingSum 2 [some 1, some 2, some 3]).getD 2 none = some 5 ∧
      (rollingMean 2 [some 1, some 2, some 3]).getD 2 none = some (5 / 2)) ∧
    (rollingSum 2 [some 1, some 2, some 3]).getD 0 none = none := by
  have h2 := rolling_window_spec 2 [some 1, some 2, some 3] 2 (by decide) (by decide)
  have h0 := rolling_window_spec 2 [some 1, some 2, some 3] 0 (by decide) (by decide)
  have ha := h2.1 [2, 3] (by decide) rfl
  have hb := (h0.2.1 (by decide)).1
  refine ⟨⟨?_, ?_⟩, hb⟩
  · have := ha.1
    norm_num at this ⊢
    exact this
  · have := ha.2
    norm_num at this ⊢
    exact this

/-! ### Lemmas on cross-sectional ranking and bucket membership -/

lemma countP_lt_countP {α : Type} {p q : α → Bool} {l : List α} {x : α}
    (hx : x ∈ l) (hqx : q x = true) (hpx : p x = false)
    (himp : ∀ a ∈ l, p a = true → q a = true) :
    l.countP p < l.countP q := by
  induction l with
  | nil => cases hx
  | cons y ys ih =>
      rw [List.countP_cons, List.countP_cons]
      rcases List.mem_cons.mp hx with rfl | hmem
      · rw [hpx, hqx]
        have hmono := List.countP_mono_left
          (fun a ha hpa => himp a (List.mem_cons_of_mem _ ha) hpa)
        simp only [Bool.false_eq_true, if_false, if_true]
        omega
      · have hrec := ih hmem fun a ha => himp a (List.mem_cons_of_mem _ ha)
        by_cases hpy : p y = true
        · rw [hpy, himp y (List.mem_cons_self y ys) hpy]
          omega
        · rw [Bool.not_eq_true] at hpy
          rw [hpy]
          by_cases hqy : q y = true
          · rw [hqy]
            simp only [Bool.false_eq_true, if_false, if_true]
            omega
          · rw [Bool.not_eq_true] at hqy
            rw [hqy]
            simp only [Bool.false_eq_true, if_false]
            omega

lemma getD_mem {row : List (Option ℚ)} {i : ℕ} {v : ℚ}
    (h : row.getD i none = some v) : some v ∈ row := by
  rw [List.getD_eq_getElem?_getD] at h
  rcases hx : row[i]? with _ | x
  · rw [hx] at h
    cases h
  · rw [hx] at h
    simp only [Option.getD_some] at h
    subst h
    exact List.getElem?_mem hx

lemma longPositions_getD (row : List (Option ℚ)) (K : ℕ) (i : ℕ) :
    (longPositions row K).getD i 0 =
      match row.getD i none with
      | some v => if 1 + (countGreater row v : ℤ) ≤ (K : ℤ) then 1 else 0
      | none => 0 := by
  rw [List.getD_eq_getElem?_getD, List.getD_eq_getElem?_getD, longPositions,
    List.getElem?_map, rankRow, List.getElem?_map]
  rcases row[i]? with _ | x
  · rfl
  · rcases x with _ | v
    · rfl
    · rfl

lemma shortPositions_getD (row : List (Option ℚ)) (K : ℕ) (i : ℕ) :
    (shortPositions row K).getD i 0 =
      match row.getD i none with
      | some v =>
          if ((row.length : ℤ) - (K : ℤ)) < 1 + (countGreater row v : ℤ) then -1
          else 0
      | none => 0 := by
  rw [List.getD_eq_getElem?_getD, List.getD_eq_getElem?_getD, shortPositions,
    List.getElem?_map, rankRow, List.getElem?_map]
  rcases row[i]? with _ | x
  · rfl
  · rcases x with _ | v
    · rfl
    · rfl

lemma get_top_bottom_getD (row : List (Option ℚ)) (K : ℕ) (i : ℕ) :
    (get_top_bottom_commodities row K).getD i 0 =
      (longPositions row K).getD i 0 + (shortPositions row K).getD i 0 := by
  rw [List.getD_eq_getElem?_getD, List.getD_eq_getElem?_getD,
    List.getD_eq_getElem?_getD, get_top_bottom_commodities, List.getElem?_zipWith]
  have hlen : (longPositions row K).length = (shortPositions row K).length := by
    simp [longPositions, shortPositions]
  rcases hl : (longPositions row K)[i]? with _ | a
  · have : (shortPositions row K)[i]? = none := by
      rw [List.getElem?_eq_none_iff] at hl ⊢
      omega
    rw [this]
    rfl
  · have hi : i < (shortPositions row K).length := by
      rw [← hlen]
      exact (List.getElem?_eq_some_iff.mp hl).1
    rcases hs : (shortPositions row K)[i]? with _ | b
    · rw [List.getElem?_eq_none_iff] at hs
      omega
    · rfl

lemma countGreater_eq_filterMap (row : List (Option ℚ)) (v : ℚ) :
    countGreater row v = (row.filterMap id).countP fun u => decide (v < u) := by
  rw [countGreater, List.countP_filterMap]
  apply List.countP_congr
  intro y _
  rcases y with _ | u
  · simp
  · simp

lemma countGreater_lt_countSome {row : List (Option ℚ)} {v : ℚ}
    (h : some v ∈ row) :
    countGreater row v < row.countP Option.isSome := by
  apply countP_lt_countP h
  · rfl
  · simp
  · intro a _ hpa
    rcases a with _ | u
    · simp at hpa
    · rfl

lemma short_count_le (row : List (Option ℚ)) (K : ℕ) :
    (shortPositions row K).count (-1) ≤ K := by
  classical
  set N := row.length with hN
  set pv : ℚ → Bool :=
    fun v => decide (((N : ℤ) - (K : ℤ)) < 1 + (countGreater row v : ℤ)) with hpv
  set D := row.filterMap id with hD
  have hcount : (shortPositions row K).count (-1) = D.countP pv := by
    rw [List.count_eq_countP, shortPositions, rankRow, List.countP_map,
      List.countP_map, hD, List.countP_filterMap]
    apply List.countP_congr
    intro y _
    rcases y with _ | u
    · simp
    · simp only [Function.comp, Option.map_some, Option.getD_some, hpv]
      by_cases hc : ((N : ℤ) - (K : ℤ)) < 1 + (countGreater row u : ℤ)
      · simp [hc]
      · simp [hc]
  rw [hcount]
  by_cases h0 : D.countP pv = 0
  · omega
  · have hLne : D.filter pv ≠ [] := by
      intro hfil
      rw [List.countP_eq_length_filter, hfil] at h0
      exact h0 rfl
    rcases hmax : (D.filter pv).maximum with _ | vstar
    · exact absurd (List.maximum_eq_bot.mp hmax) hLne
    · have hvmem : vstar ∈ D.filter pv := List.maximum_mem hmax
      have hvD : vstar ∈ D := (List.mem_filter.mp hvmem).1
      have hvp : pv vstar = true := (List.mem_filter.mp hvmem).2
      have hub : ∀ w ∈ D, pv w = true → w ≤ vstar := by
        intro w hw hpw
        exact List.le_maximum_of_mem (List.mem_filter.mpr ⟨hw, hpw⟩) hmax
      have hmono : D.countP pv ≤ D.countP fun w => decide (w ≤ vstar) := by
        apply List.countP_mono_left
        intro w hw hpw
        simpa using hub w hw hpw
      have hsplit := List.length_eq_countP_add_countP
        (fun w : ℚ => decide (w ≤ vstar)) D
      have hgt : (D.countP fun a : ℚ => decide (¬ decide (a ≤ vstar) = true)) =
          countGreater row vstar := by
        rw [countGreater_eq_filterMap]
        apply List.countP_congr
        intro w _
        simp [not_le]
      have hDlen : D.length ≤ N := List.length_filterMap_le id row
      have hstar : ((N : ℤ) - (K : ℤ)) < 1 + (countGreater row vstar : ℤ) := by
        simpa [hpv] using hvp
      rw [hgt] at hsplit
      omega

lemma longPositions_getD_some (row : List (Option ℚ)) (K i : ℕ) {v : ℚ}
    (hi : row.getD i none = some v) :
    (longPositions row K).getD i 0 =
      if 1 + (countGreater row v : ℤ) ≤ (K : ℤ) then 1 else 0 := by
  rw [longPositions_getD, hi]

lemma shortPositions_getD_some (row : List (Option ℚ)) (K i : ℕ) {v : ℚ}
    (hi : row.getD i none = some v) :
    (shortPositions row K).getD i 0 =
      if ((row.length : ℤ) - (K : ℤ)) < 1 + (countGreater row v : ℤ) then -1
      else 0 := by
  rw [shortPositions_getD, hi]

lemma longPositions_getD_none (row : List (Option ℚ)) (K i : ℕ)
    (hi : row.getD i none = none) :
    (longPositions row K).getD i 0 = 0 := by
  rw [longPositions_getD, hi]

lemma shortPositions_getD_none (row : List (Option ℚ)) (K i : ℕ)
    (hi : row.getD i none = none) :
    (shortPositions row K).getD i 0 = 0 := by
  rw [shortPositions_getD, hi]

/-- Claim C2 (counterexample): in row `[5, 4, 1, 1]` with `K = 1` the two
value-1 assets tie across the short-bucket boundary, and the claim's
inclusion-under-ties would mark both short (−1); the code instead gives
both rank 3 (rank-min), the cutoff `rank > 4 − 1 = 3` fails, and neither
is short. -/
theorem short_tie_inclusion_cex :
    get_top_bottom_commodities [some 5, some 4, some 1, some 1] 1 = [1, 0, 0, 0] ∧
    ¬ ((get_top_bottom_commodities [some 5, some 4, some 1, some 1] 1).getD 2 0 = -1 ∧
       (get_top_bottom_commodities [some 5, some 4, some 1, some 1] 1).getD 3 0 = -1) := by
  decide

/-- Claim C2 (amended): the signal generator ranks descending with
rank-min tie semantics, and tied (equal-valued) assets always receive
identical positions. Ties at the long K-boundary admit every tied asset
into the long bucket, which may then exceed K members (higher-or-equal
scores of a long asset are long; row `[5, 5, 3, 1]`, `K = 1` marks both
value-5 assets +1 and leaves the value-3 asset out). At the short
boundary the opposite happens: a tie group straddling the cutoff is
excluded entirely, so the short bucket never exceeds K members (row
`[5, 4, 1, 1]`, `K = 1` marks nobody short). -/
theorem rank_tie_semantics (row : List (Option ℚ)) (K : ℕ) :
    (∀ i j v, row.getD i none = some v → row.getD j none = some v →
       (get_top_bottom_commodities row K).getD i 0 =
       (get_top_bottom_commodities row K).getD j 0)
    ∧ (∀ i j v w, row.getD i none = some v → row.getD j none = some w → v ≤ w →
       (longPositions row K).getD i 0 = 1 → (longPositions row K).getD j 0 = 1)
    ∧ ((shortPositions row K).count (-1) ≤ K)
    ∧ (get_top_bottom_commodities [some 5, some 5, some 3, some 1] 1 = [1, 1, 0, -1])
    ∧ (get_top_bottom_commodities [some 5, some 4, some 1, some 1] 1 = [1, 0, 0, 0]) := by
  refine ⟨?_, ?_, short_count_le row K, by decide, by decide⟩
  · intro i j v hi hj
    rw [get_top_bottom_getD, get_top_bottom_getD, longPositions_getD,
      longPositions_getD, shortPositions_getD, shortPositions_getD, hi, hj]
  · intro i j v w hi hj hvw hlong
    rw [longPositions_getD_some row K i hi] at hlong
    rw [longPositions_getD_some row K j hj]
    have hcg : countGreater row w ≤ countGreater row v := by
      apply List.countP_mono_left
      intro y _ hy
      rcases y with _ | u
      · simp at hy
      · simp at hy ⊢
        exact lt_of_le_of_lt hvw hy
    by_cases hc : 1 + (countGreater row v : ℤ) ≤ (K : ℤ)
    · have hc2 : 1 + (countGreater row w : ℤ) ≤ (K : ℤ) := by
        have hle : (countGreater row w : ℤ) ≤ (countGreater row v : ℤ) := by
          exact_mod_cast hcg
        omega
      rw [if_pos hc2]
    · rw [if_neg hc] at hlong
      cases hlong

lemma zipWith_add_replicate_zero (L : List ℤ) :
    List.zipWith (· + ·) L (List.replicate L.length 0) = L := by
  induction L with
  | nil => rfl
  | cons a as ih =>
      simp only [List.length_cons, List.replicate_succ, List.zipWith_cons_cons,
        add_zero, ih]

/-- Claim C10: when a rolling-score row holds at least K missing scores,
no asset is marked short: the maximum assignable rank is the number of
defined scores, which is at most `N − K`, while the short cutoff demands
rank strictly above `N − K` (with `N` counting the missing columns). -/
theorem missing_scores_empty_short_bucket (row : List (Option ℚ)) (K : ℕ)
    (h : K ≤ row.countP fun y => y.isNone) :
    shortPositions row K = List.replicate row.length 0 ∧
    get_top_bottom_commodities row K = longPositions row K ∧
    ∀ i, (get_top_bottom_commodities row K).getD i 0 ≠ -1 := by
  have hcount : row.countP Option.isSome + row.countP (fun y => y.isNone) =
      row.length := by
    have := List.length_eq_countP_add_countP Option.isSome row
    have hcongr : (row.countP fun a => decide (¬ a.isSome = true)) =
        row.countP fun y => y.isNone := by
      apply List.countP_congr
      intro y _
      rcases y with _ | u
      · simp
      · simp
    omega
  have key : ∀ v, some v ∈ row →
      ¬ (((row.length : ℤ) - (K : ℤ)) < 1 + (countGreater row v : ℤ)) := by
    intro v hv
    have h1 : countGreater row v < row.countP Option.isSome :=
      countGreater_lt_countSome hv
    omega
  have hshort : shortPositions row K = List.replicate row.length 0 := by
    rw [List.eq_replicate_iff]
    constructor
    · simp [shortPositions, rankRow]
    · intro b hb
      obtain ⟨idx, hidx, rfl⟩ := List.mem_iff_getElem.mp hb
      rw [← List.getD_eq_getElem _ 0 hidx]
      rcases hy : row.getD idx none with _ | v
      · exact shortPositions_getD_none row K idx hy
      · rw [shortPositions_getD_some row K idx hy, if_neg (key v (getD_mem hy))]
  have hzip : get_top_bottom_commodities row K = longPositions row K := by
    have hlen : (longPositions row K).length = row.length := by
      simp [longPositions, rankRow]
    rw [get_top_bottom_commodities, hshort, ← hlen, zipWith_add_replicate_zero]
  refine ⟨hshort, hzip, ?_⟩
  intro i
  rw [hzip]
  rcases hy : row.getD i none with _ | v
  · rw [longPositions_getD_none row K i hy]
    decide
  · rw [longPositions_getD_some row K i hy]
    by_cases hc : 1 + (countGreater row v : ℤ) ≤ (K : ℤ)
    · rw [if_pos hc]
      decide
    · rw [if_neg hc]
      decide

/-- Witness for C10 at a concrete input: row `[5, 3, missing]`, `K = 1`
has one missing score, so nobody is short although two valid scores
exist. -/
theorem missing_scores_empty_short_bucket_witness :
    ((1 : ℕ) ≤ [some (5 : ℚ), some 3, none].countP (fun y => y.isNone)) ∧
    shortPositions [some (5 : ℚ), some 3, none] 1 = [0, 0, 0] := by
  refine ⟨by decide, ?_⟩
  have h := (missing_scores_empty_short_bucket [some (5 : ℚ), some 3, none] 1
    (by decide)).1
  simpa using h

/-! ### Lemmas on outlier repair -/

lemma getD_eq_of_length_le {α : Type} {l : List α} {i : ℕ} (d : α)
    (h : l.length ≤ i) : l.getD i d = d := by
  rw [List.getD_eq_getElem?_getD, List.getElem?_eq_none_iff.mpr h]
  rfl

lemma foldl_set_length {α : Type} (f : ℕ → α) (L : List ℕ) (acc : List α) :
    (L.foldl (fun c j => c.set j (f j)) acc).length = acc.length := by
  induction L generalizing acc with
  | nil => rfl
  | cons j L ih => rw [List.foldl_cons, ih, List.length_set]

lemma foldl_set_getD {α : Type} (f : ℕ → α) (d : α) (L : List ℕ)
    (acc : List α) (i : ℕ) :
    (L.foldl (fun c j => c.set j (f j)) acc).getD i d =
      if i ∈ L ∧ i < acc.length then f i else acc.getD i d := by
  induction L generalizing acc with
  | nil => simp
  | cons j L ih =>
      rw [List.foldl_cons, ih]
      by_cases hilen : i < acc.length
      · by_cases hiL : i ∈ L
        · rw [if_pos ⟨hiL, by rw [List.length_set]; exact hilen⟩,
            if_pos ⟨List.mem_cons_of_mem j hiL, hilen⟩]
        · rw [if_neg (by rw [List.length_set]; tauto)]
          by_cases hij : i = j
          · subst hij
            rw [if_pos ⟨List.mem_cons_self i L, hilen⟩,
              List.getD_eq_getElem?_getD, List.getElem?_set_self hilen]
            rfl
          · rw [List.getD_eq_getElem?_getD,
              List.getElem?_set_ne (fun h => hij h.symm),
              ← List.getD_eq_getElem?_getD,
              if_neg (by simp [hij, hiL])]
      · rw [if_neg (by rw [List.length_set]; tauto), if_neg (by tauto),
          getD_eq_of_length_le d (by rw [List.length_set]; omega),
          getD_eq_of_length_le d (by omega)]

lemma mem_outlierIndices {data : List (Option ℚ)} {thr : ℚ} {i : ℕ} :
    i ∈ outlierIndices data thr ↔
      i < data.length ∧ isOutlier thr (data.getD i none) = true := by
  rw [outlierIndices, List.mem_filter, List.mem_range]

/-- Claim C4: outlier repair replaces exactly the entries whose absolute
value exceeds the period threshold, each with the mean of the up-to-3
preceding and up-to-3 following values of the original series (only the
values actually present near an edge; at index 0 only forward
neighbours), and leaves every other entry unchanged. Mutation of the
input cannot arise: `remove_outliers` is a pure function of the original
list. -/
theorem remove_outliers_spec (data : List (Option ℚ)) (p : Period) (i : ℕ) :
    ((remove_outliers data p).length = data.length)
    ∧ ((remove_outliers data p).getD i none =
        if isOutlier p.threshold (data.getD i none) = true then
          outlierReplacement data i
        else data.getD i none)
    ∧ (outlierReplacement data i =
        optMean ((data.take i).drop (i - 3) ++ (data.drop (i + 1)).take 3))
    ∧ (outlierReplacement data 0 = optMean ((data.drop 1).take 3)) := by
  refine ⟨foldl_set_length _ _ _, ?_, rfl, ?_⟩
  · rw [remove_outliers, foldl_set_getD]
    by_cases ho : isOutlier p.threshold (data.getD i none) = true
    · by_cases hil : i < data.length
      · rw [if_pos ⟨mem_outlierIndices.mpr ⟨hil, ho⟩, hil⟩, if_pos ho]
      · exfalso
        rw [getD_eq_of_length_le none (by omega)] at ho
        cases ho
    · rw [if_neg ?_, if_neg ho]
      rintro ⟨hmem, -⟩
      exact ho (mem_outlierIndices.mp hmem).2
  · rw [outlierReplacement, prevWindow, nextWindow]
    simp

/-! ### Lemmas on the backtest simulator (shift-by-one application) -/

lemma zipWith_getD {α β γ : Type} (f : α → β → γ) (a : List α) (b : List β)
    (i : ℕ) (da : α) (db : β) (dc : γ) (ha : i < a.length) (hb : i < b.length) :
    (List.zipWith f a b).getD i dc = f (a.getD i da) (b.getD i db) := by
  rw [List.getD_eq_getElem _ _ (by rw [List.length_zipWith]; omega),
    List.getElem_zipWith, List.getD_eq_getElem _ _ ha, List.getD_eq_getElem _ _ hb]

lemma rowDot_replicate_none (n : ℕ) (ret : List (Option ℚ)) :
    rowDot (List.replicate n none) ret = 0 := by
  induction ret generalizing n with
  | nil => simp [rowDot]
  | cons r rs ih =>
      cases n with
      | zero => simp [rowDot]
      | succ m =>
          rw [rowDot, List.replicate_succ, List.zipWith_cons_cons, List.sum_cons]
          have := ih m
          rw [rowDot] at this
          rw [this, add_zero]

lemma momentumSignals_length (data : List (List (Option ℚ))) (K X : ℕ) :
    (momentumSignals data K X).length = data.length := by
  simp [momentumSignals, rollingPanelSum]

lemma shiftRows_length (rows : List (List ℤ)) (n : ℕ) :
    (shiftRows rows n).length = rows.length := by
  cases rows with
  | nil => rfl
  | cons r rs => simp [shiftRows]

lemma shiftRows_getD_succ (rows : List (List ℤ)) (n t : ℕ)
    (ht : t + 1 < rows.length) :
    (shiftRows rows n).getD (t + 1) [] = (rows.getD t []).map some := by
  rcases rows with _ | ⟨r, rs⟩
  · simp at ht
  · rw [shiftRows, List.getD_cons_succ]
    have hlen : t < (((r :: rs).map fun row => row.map some).dropLast).length := by
      simp only [List.length_dropLast, List.length_map, List.length_cons]
      simp only [List.length_cons] at ht
      omega
    rw [List.getD_eq_getElem _ _ hlen, List.getElem_dropLast, List.getElem_map,
      List.getD_eq_getElem _ _ (by simp only [List.length_cons] at ht ⊢; omega)]

lemma momentumStrategyReturns_head (data : List (List (Option ℚ))) (K X : ℕ)
    (h : data ≠ []) :
    (momentumStrategyReturns data K X).head? = some 0 := by
  rcases hd : data with _ | ⟨d, ds⟩
  · exact absurd hd h
  · rcases hs : momentumSignals data K X with _ | ⟨s, ss⟩
    · exfalso
      have := momentumSignals_length data K X
      rw [hs, hd] at this
      simp at this
    · rw [← hd]
      rw [momentumStrategyReturns, hs, hd, shiftRows, List.zipWith_cons_cons]
      rw [List.head?_cons, rowDot_replicate_none, zero_div]

lemma momentumStrategyReturns_getD_succ (data : List (List (Option ℚ)))
    (K X t : ℕ) (ht : t + 1 < data.length) :
    (momentumStrategyReturns data K X).getD (t + 1) 0 =
      rowDot (((momentumSignals data K X).getD t []).map some)
        (data.getD (t + 1) []) / (2 * (K : ℚ)) := by
  have h1 : t + 1 < (shiftRows (momentumSignals data K X) (panelWidth data)).length := by
    rw [shiftRows_length, momentumSignals_length]
    exact ht
  rw [momentumStrategyReturns, zipWith_getD _ _ _ _ [] [] 0 h1 ht,
    shiftRows_getD_succ _ _ _ (by rw [momentumSignals_length]; exact ht)]

lemma rowDot_map_some (sig : List ℤ) (vals : List ℚ) :
    rowDot (sig.map some) (vals.map some) =
      (List.zipWith (fun (sg : ℤ) (r : ℚ) => (sg : ℚ) * r) sig vals).sum := by
  rw [rowDot, List.zipWith_map]

lemma pctChange_length (prices : List ℚ) :
    (pctChange prices).length = prices.length := by
  cases prices with
  | nil => rfl
  | cons p ps => simp [pctChange, List.length_zipWith]

lemma rollingMean_length (w : ℕ) (l : List (Option ℚ)) :
    (rollingMean w l).length = l.length := by
  simp [rollingMean]

lemma smaSignal_length (prices : List ℚ) (s l : ℕ) :
    (smaSignal prices s l).length = prices.length := by
  simp [smaSignal, List.length_zipWith, rollingMean_length]

lemma shiftSignal_length (xs : List ℤ) : (shiftSignal xs).length = xs.length := by
  cases xs with
  | nil => rfl
  | cons x xs => simp [shiftSignal]

lemma shiftSignal_getD_succ (xs : List ℤ) (t : ℕ) (ht : t + 1 < xs.length) :
    (shiftSignal xs).getD (t + 1) none = some (xs.getD t 0) := by
  rcases xs with _ | ⟨x, rest⟩
  · simp at ht
  · rw [shiftSignal, List.getD_cons_succ]
    have hlen : t < (((x :: rest).map some).dropLast).length := by
      simp only [List.length_dropLast, List.length_map, List.length_cons]
      simp only [List.length_cons] at ht
      omega
    rw [List.getD_eq_getElem _ _ hlen, List.getElem_dropLast, List.getElem_map,
      List.getD_eq_getElem _ _ (by simp only [List.length_cons] at ht ⊢; omega)]

lemma smaStrategyReturns_length (prices : List ℚ) (s l : ℕ) :
    (smaStrategyReturns prices s l).length = prices.length := by
  simp [smaStrategyReturns, List.length_zipWith, pctChange_length,
    shiftSignal_length, smaSignal_length]

lemma smaStrategyReturns_head (prices : List ℚ) (s l : ℕ) (h : prices ≠ []) :
    (smaStrategyReturns prices s l).head? = some none := by
  rcases hp : prices with _ | ⟨p, ps⟩
  · exact absurd hp h
  · rcases hx : smaSignal prices s l with _ | ⟨x, xs⟩
    · exfalso
      have := smaSignal_length prices s l
      rw [hx, hp] at this
      simp at this
    · rw [← hp, smaStrategyReturns, hx, hp, pctChange, shiftSignal,
        List.zipWith_cons_cons, List.head?_cons]

lemma smaStrategyReturns_getD_succ (prices : List ℚ) (s l t : ℕ)
    (ht : t + 1 < prices.length) :
    (smaStrategyReturns prices s l).getD (t + 1) none =
      ((pctChange prices).getD (t + 1) none).map
        (fun r => r * (((smaSignal prices s l).getD t 0 : ℤ) : ℚ)) := by
  have h1 : t + 1 < (pctChange prices).length := by
    rw [pctChange_length]
    exact ht
  have h2 : t + 1 < (shiftSignal (smaSignal prices s l)).length := by
    rw [shiftSignal_length, smaSignal_length]
    exact ht
  rw [smaStrategyReturns, zipWith_getD _ _ _ _ none none none h1 h2,
    shiftSignal_getD_succ _ _ (by rw [smaSignal_length]; exact ht)]
  rcases (pctChange prices).getD (t + 1) none with _ | rv
  · rfl
  · rfl

/-- Claim C1 (counterexample): for a concrete 3-row, 2-asset panel with
`K = 1`, `X = 1`, the cross-sectional momentum strategy-return series has
three entries and its very first entry is the number `0` — the
all-missing shifted-signal row sums to `0` under pandas'
missing-skipping row sum — not a missing value as the claim asserts. -/
theorem momentum_first_entry_defined_cex :
    (momentumStrategyReturns
      [[some 1, some 2], [some 3, some 4], [some 5, some 6]] 1 1).head? =
      some 0 ∧
    (momentumStrategyReturns
      [[some 1, some 2], [some 3, some 4], [some 5, some 6]] 1 1).length = 3 := by
  constructor
  · exact momentumStrategyReturns_head _ 1 1 (by decide)
  · rw [momentumStrategyReturns, List.length_zipWith, shiftRows_length,
      momentumSignals_length]
    decide

/-- Claim C1 (amended): the backtest applies the signal shifted forward
by one period — strategy return at `t+1` combines the signal decided at
`t` with the return realised at `t+1`, for the crossover series and the
momentum panel alike. The first crossover strategy return is missing,
but the first cross-sectional momentum strategy return is the defined
number `0` (pandas sums the all-missing shifted-signal row to `0.0`),
not a missing value. -/
theorem lagged_signal_first_entry (data : List (List (Option ℚ))) (K X : ℕ)
    (prices : List ℚ) (s l : ℕ) :
    (data ≠ [] → (momentumStrategyReturns data K X).head? = some 0)
    ∧ (prices ≠ [] → (smaStrategyReturns prices s l).head? = some none)
    ∧ (∀ t, t + 1 < prices.length →
        (smaStrategyReturns prices s l).getD (t + 1) none =
          ((pctChange prices).getD (t + 1) none).map
            (fun r => r * (((smaSignal prices s l).getD t 0 : ℤ) : ℚ)))
    ∧ (∀ t, t + 1 < data.length →
        (momentumStrategyReturns data K X).getD (t + 1) 0 =
          rowDot (((momentumSignals data K X).getD t []).map some)
            (data.getD (t + 1) []) / (2 * (K : ℚ))) :=
  ⟨momentumStrategyReturns_head data K X,
   smaStrategyReturns_head prices s l,
   fun t ht => smaStrategyReturns_getD_succ prices s l t ht,
   fun t ht => momentumStrategyReturns_getD_succ data K X t ht⟩

/-- Claim C3: at every timestamp past the first, the cross-sectional
strategy return equals the sum over all assets of (signal at the
previous timestamp × return now), divided by the fixed constant `2K` —
the nominal bucket size, independent of how many assets actually hold
positions. -/
theorem momentum_fixed_normalization (data : List (List (Option ℚ)))
    (K X t : ℕ) (vals : List ℚ) (ht : t + 1 < data.length)
    (hrow : data.getD (t + 1) [] = vals.map some) :
    (momentumStrategyReturns data K X).getD (t + 1) 0 =
      (List.zipWith (fun (sg : ℤ) (r : ℚ) => (sg : ℚ) * r)
        ((momentumSignals data K X).getD t []) vals).sum / (2 * (K : ℚ)) := by
  rw [momentumStrategyReturns_getD_succ data K X t ht, hrow, rowDot_map_some]

/-- Witness for C3 at a concrete input: on the 3-row, 2-asset panel with
`K = 1`, `X = 1`, the return at index 1 is the signal-weighted sum of row
1 divided by `2·1`. -/
theorem momentum_fixed_normalization_witness :
    (momentumStrategyReturns
      [[some 1, some 2], [some 3, some 4], [some 5, some 6]] 1 1).getD 1 0 =
      (List.zipWith (fun (sg : ℤ) (r : ℚ) => (sg : ℚ) * r)
        ((momentumSignals
          [[some 1, some 2], [some 3, some 4], [some 5, some 6]] 1 1).getD 0 [])
        [3, 4]).sum / (2 * (1 : ℚ)) :=
  momentum_fixed_normalization
    [[some 1, some 2], [some 3, some 4], [some 5, some 6]] 1 1 0 [3, 4]
    (by decide) (by decide)

/-! ### Single-pair path versus grid path (sma.py) -/

/-- Claim C5 (counterexample): the pair short = 3, long = 2 (short ≥
long) fed to the single-pair path on the price series `[1, 2, 3]` is
evaluated and yields a result — no configuration error is signalled,
contrary to the claim. -/
theorem single_sma_no_validation_cex :
    (compute_single_sma_strategy [1, 2, 3] 3 2).isSome = true := by
  rw [compute_single_sma_strategy, if_neg (by decide)]
  rfl

/-- Claim C5 (amended): the single-pair crossover path performs no
short-versus-long validation — every request with positive windows and a
non-empty series is evaluated, including pairs with short ≥ long (only
window length 0 or an empty frame fault, inside pandas itself). The grid
path, by contrast, evaluates only pairs with short < long, silently
skipping the rest. -/
theorem single_path_evaluates_grid_skips (prices : List ℚ) (s l : ℕ) :
    (s ≠ 0 → l ≠ 0 → prices ≠ [] →
      compute_single_sma_strategy prices s l =
        some { signal := smaSignal prices s l
               strategyReturn := smaStrategyReturns prices s l
               stratCumulative := strategyCumulative prices s l
               baselineCumulative := prices.map fun p => some (p / prices.headD 0 - 1) })
    ∧ (∀ q ∈ strategyResults prices, q.1.1 < q.1.2) := by
  constructor
  · intro hs hl hp
    have hc : ¬ (s = 0 ∨ l = 0 ∨ prices.isEmpty = true) := by
      simp [hs, hl, List.isEmpty_iff, hp]
    rw [compute_single_sma_strategy, if_neg hc]
  · intro q hq
    rw [strategyResults] at hq
    obtain ⟨a, _, hq⟩ := List.mem_flatMap.mp hq
    obtain ⟨b, _, hfb⟩ := List.mem_filterMap.mp hq
    by_cases hab : a < b
    · rw [if_pos hab] at hfb
      obtain rfl := Option.some.inj hfb
      exact hab
    · rw [if_neg hab] at hfb
      cases hfb

/-! ### Lemmas on the performance metrics -/

lemma sampleVar_nonneg {l : List ℚ} {v : ℚ} (h : sampleVar l = some v) :
    0 ≤ v := by
  rw [sampleVar] at h
  by_cases h2 : l.length < 2
  · rw [if_pos h2] at h
    cases h
  · rw [if_neg h2] at h
    injection h with h
    subst h
    apply div_nonneg
    · apply List.sum_nonneg
      intro x hx
      obtain ⟨y, -, rfl⟩ := List.mem_map.mp hx
      exact sq_nonneg _
    · have hlen : 2 ≤ l.length := not_lt.mp h2
      have hcast : (2 : ℚ) ≤ (l.length : ℚ) := by exact_mod_cast hlen
      linarith

/-- Claim C7: a strategy-return series whose annualized standard
deviation is 0 gets Sharpe ratio exactly 0 — a defined number, not a
failure or a NaN; with a nonzero (defined) annualized standard
deviation, Sharpe = (annualized return − risk-free rate) / annualized
standard deviation; and the annualized standard deviation is 0 precisely
on zero-variance series. -/
theorem sharpe_zero_guard (l : List ℚ) (rf : ℚ) :
    (annualizedStdDev l = some 0 → sharpe l rf = some 0)
    ∧ (∀ s : ℝ, annualizedStdDev l = some s → s ≠ 0 →
        ∀ m : ℚ, annualizedReturn l = some m →
          sharpe l rf = some (((m : ℝ) - (rf : ℝ)) / s))
    ∧ (∀ v : ℚ, sampleVar l = some v →
        (annualizedStdDev l = some 0 ↔ v = 0)) := by
  refine ⟨?_, ?_, ?_⟩
  · intro h
    rw [sharpe, h]
    simp
  · intro s hs hsne m hm
    rw [sharpe, hs]
    simp [hsne, hm]
  · intro v hv
    rw [annualizedStdDev, sampleStd, hv]
    simp only [Option.map_some', Option.some.injEq]
    have h12 : Real.sqrt 12 ≠ 0 := by
      have : (0 : ℝ) < Real.sqrt 12 := Real.sqrt_pos.mpr (by norm_num)
      exact ne_of_gt this
    constructor
    · intro h0
      rcases mul_eq_zero.mp h0 with hz | hz
      · have hle : ((v : ℝ)) ≤ 0 := Real.sqrt_eq_zero'.mp hz
        have hge : (0 : ℚ) ≤ v := sampleVar_nonneg hv
        have hge' : (0 : ℝ) ≤ (v : ℝ) := by exact_mod_cast hge
        exact_mod_cast le_antisymm hle hge'
      · exact absurd hz h12
    · intro h0
      subst h0
      simp [Real.sqrt_eq_zero']

/-! ### Lemmas on the grid search -/

lemma mem_strategyResults {prices : List ℚ} {s l : ℕ} {v : Option ℚ} :
    ((s, l), v) ∈ strategyResults prices ↔
      (1 ≤ s ∧ s ≤ 251 ∧ 1 ≤ l ∧ l ≤ 251 ∧ s < l ∧
        v = finalCumulativeReturn prices s l) := by
  rw [strategyResults]
  constructor
  · intro h
    obtain ⟨a, ha, h⟩ := List.mem_flatMap.mp h
    obtain ⟨b, hb, hfb⟩ := List.mem_filterMap.mp h
    rw [movingAverages, List.mem_range'_1] at ha hb
    by_cases hab : a < b
    · rw [if_pos hab] at hfb
      simp only [Option.some.injEq, Prod.mk.injEq] at hfb
      obtain ⟨⟨rfl, rfl⟩, rfl⟩ := hfb
      exact ⟨ha.1, by omega, hb.1, by omega, hab, rfl⟩
    · rw [if_neg hab] at hfb
      cases hfb
  · rintro ⟨hs1, hs2, hl1, hl2, hsl, rfl⟩
    refine List.mem_flatMap.mpr ⟨s, ?_, List.mem_filterMap.mpr ⟨l, ?_, ?_⟩⟩
    · rw [movingAverages, List.mem_range'_1]
      omega
    · rw [movingAverages, List.mem_range'_1]
      omega
    · rw [if_pos hsl]

lemma mem_strategyStdDevs {prices : List ℚ} {s l : ℕ} {v : Option ℝ} :
    ((s, l), v) ∈ strategyStdDevs prices ↔
      (1 ≤ s ∧ s ≤ 251 ∧ 1 ≤ l ∧ l ≤ 251 ∧ s < l ∧
        v = sampleStd ((smaStrategyReturns prices s l).filterMap id)) := by
  rw [strategyStdDevs]
  constructor
  · intro h
    obtain ⟨a, ha, h⟩ := List.mem_flatMap.mp h
    obtain ⟨b, hb, hfb⟩ := List.mem_filterMap.mp h
    rw [movingAverages, List.mem_range'_1] at ha hb
    by_cases hab : a < b
    · rw [if_pos hab] at hfb
      simp only [Option.some.injEq, Prod.mk.injEq] at hfb
      obtain ⟨⟨rfl, rfl⟩, rfl⟩ := hfb
      exact ⟨ha.1, by omega, hb.1, by omega, hab, rfl⟩
    · rw [if_neg hab] at hfb
      cases hfb
  · rintro ⟨hs1, hs2, hl1, hl2, hsl, rfl⟩
    refine List.mem_flatMap.mpr ⟨s, ?_, List.mem_filterMap.mpr ⟨l, ?_, ?_⟩⟩
    · rw [movingAverages, List.mem_range'_1]
      omega
    · rw [movingAverages, List.mem_range'_1]
      omega
    · rw [if_pos hsl]

lemma sortedStrategies_pairwise (prices : List ℚ) :
    (sortedStrategies prices).Pairwise fun a b => sortKey b ≤ sortKey a := by
  have htrans : ∀ a b c : (ℕ × ℕ) × Option ℚ,
      decide (sortKey b ≤ sortKey a) = true →
      decide (sortKey c ≤ sortKey b) = true →
      decide (sortKey c ≤ sortKey a) = true := by
    intro a b c hab hbc
    exact decide_eq_true (le_trans (of_decide_eq_true hbc) (of_decide_eq_true hab))
  have htotal : ∀ a b : (ℕ × ℕ) × Option ℚ,
      (decide (sortKey b ≤ sortKey a) || decide (sortKey a ≤ sortKey b)) = true := by
    intro a b
    rcases le_total (sortKey b) (sortKey a) with h | h
    · simp [h]
    · simp [h]
  have h := List.sorted_mergeSort htrans htotal (strategyResults prices)
  exact h.imp fun hab => of_decide_eq_true hab

/-- Claim C9: the grid search evaluates exactly the window pairs
`(s, l)` with `1 ≤ s, l ≤ 251` and `s < l` — pairs with `s ≥ l` never
appear — stores each evaluated pair's final compounded cumulative return
and its standard deviation, and reports the first `topN` entries of the
stable descending sort by cumulative return alone (Sharpe plays no role
in the ordering; it is only printed afterwards for the reported pairs). -/
theorem grid_search_spec (prices : List ℚ) (topN : ℕ) :
    (∀ s l v, ((s, l), v) ∈ strategyResults prices ↔
      (1 ≤ s ∧ s ≤ 251 ∧ 1 ≤ l ∧ l ≤ 251 ∧ s < l ∧
        v = finalCumulativeReturn prices s l))
    ∧ ((sortedStrategies prices).Perm (strategyResults prices))
    ∧ ((sortedStrategies prices).Pairwise fun a b => sortKey b ≤ sortKey a)
    ∧ (bestStrategies prices topN = (sortedStrategies prices).take topN)
    ∧ ((bestStrategies prices topN).length =
        min topN (strategyResults prices).length)
    ∧ (∀ x ∈ bestStrategies prices topN, x ∈ strategyResults prices)
    ∧ (∀ s l v, ((s, l), v) ∈ strategyStdDevs prices ↔
      (1 ≤ s ∧ s ≤ 251 ∧ 1 ≤ l ∧ l ≤ 251 ∧ s < l ∧
        v = sampleStd ((smaStrategyReturns prices s l).filterMap id))) := by
  have hperm : (sortedStrategies prices).Perm (strategyResults prices) :=
    List.mergeSort_perm _ _
  refine ⟨fun s l v => mem_strategyResults, hperm, sortedStrategies_pairwise prices,
    rfl, ?_, ?_, fun s l v => mem_strategyStdDevs⟩
  · rw [bestStrategies, List.length_take, hperm.length_eq]
  · intro x hx
    exact hperm.subset (List.take_subset _ _ hx)
